import Mathlib

/-!
Shallow embedding of the `subset_generator` Rust crate.

The crate enumerates all subsets of a vector by maintaining an N-bit counter
(a `BitVec` of booleans, bit `i` selecting item `i`) that is incremented by
one on every call to `next`, projecting the resulting bit pattern into the
list of selected items.  We model the two structs `SubsetGenerator` and
`SubsetIter` (src/lib.rs), the increment routine `next_set`, the iterator
step `next`, and the `setcover` example program.
-/

universe u

/-- `SubsetGenerator<'a, T>` from src/lib.rs: a borrowed dataset together
with the `with_emptyset` configuration flag. -/
structure SubsetGenerator (α : Type u) : Type u where
  data : List α
  with_emptyset : Bool

/-- `SubsetIter<'a, T>` from src/lib.rs: the borrowed dataset, the bit
counter `set` (a `BitVec`, modelled as a list of booleans indexed like the
data) and the one-shot `with_emptyset` flag. -/
structure SubsetIter (α : Type u) : Type u where
  data : List α
  set : List Bool
  with_emptyset : Bool

/-- `SubsetGenerator::new(data, with_emptyset)`. -/
def SubsetGenerator.new (data : List α) (with_emptyset : Bool) :
    SubsetGenerator α :=
  { data := data, with_emptyset := with_emptyset }

/-- `SubsetGenerator::iter`: builds a `SubsetIter` whose counter is
`BitVec::from_elem(len, false)`, i.e. `data.len()` bits all false. -/
def SubsetGenerator.iter (g : SubsetGenerator α) : SubsetIter α :=
  { data := g.data
    set := List.replicate g.data.length false
    with_emptyset := g.with_emptyset }

/-- `SubsetGenerator::into_iter`: consumes the generator and builds the
same `SubsetIter` as `iter` does. -/
def SubsetGenerator.into_iter (g : SubsetGenerator α) : SubsetIter α :=
  { data := g.data
    set := List.replicate g.data.length false
    with_emptyset := g.with_emptyset }

/-- The first loop of `SubsetIter::next_set`: `all_set` starts `true` and
is `&=`-folded with every bit of the counter, scanning indices upward. -/
def allSet (bs : List Bool) : Bool :=
  bs.foldl (fun acc b => acc && b) true

/-- The second loop of `SubsetIter::next_set`: scan bits from index 0
upward, flipping each `true` to `false`, and stop after flipping the first
`false` to `true` (binary increment, bit 0 least significant). -/
def incBits : List Bool → List Bool
  | [] => []
  | b :: bs => if b then false :: incBits bs else true :: bs

/-- `SubsetIter::next_set`: if all bits are already set, return `false`
without touching the counter; otherwise increment the counter and return
`true`. -/
def SubsetIter.next_set (s : SubsetIter α) : Bool × SubsetIter α :=
  if allSet s.set then (false, s)
  else (true, { s with set := incBits s.set })

/-- The projection loop in `Iterator::next`: for `i in 0..set.len()`, if
`set[i]` then push `data[i]`.  An out-of-bounds access `data[i]` shows up
here as a dropped `none`; the length invariant proved below makes that
branch unreachable. -/
def project (data : List α) (set : List Bool) : List α :=
  (List.range set.length).filterMap
    (fun i => if set.getD i false then data[i]? else none)

/-- `Iterator::next for SubsetIter`: emit the empty subset first when the
one-shot `with_emptyset` flag is on (without touching the counter),
otherwise advance the counter with `next_set` and project it. -/
def SubsetIter.next (s : SubsetIter α) : Option (List α) × SubsetIter α :=
  if s.with_emptyset then
    (some [], { s with with_emptyset := false })
  else
    match s.next_set with
    | (true, s') => (some (project s'.data s'.set), s')
    | (false, s') => (none, s')

/-- Driving an iterator for at most `f` steps, collecting emitted subsets;
stops at the first `none`. -/
def runFuel : Nat → SubsetIter α → List (List α)
  | 0, _ => []
  | f + 1, s =>
    match s.next with
    | (some t, s') => t :: runFuel f s'
    | (none, _) => []

/-- A full session: drive the iterator to exhaustion.  `2 ^ N + 1` steps
always suffice since at most `2 ^ N` subsets are emitted. -/
def session (g : SubsetGenerator α) : List (List α) :=
  runFuel (2 ^ g.data.length + 1) g.iter

/-- Iterating the state transition of `next`, ignoring outputs. -/
def stepN : Nat → SubsetIter α → SubsetIter α
  | 0, s => s
  | m + 1, s => stepN m (s.next).2

/-- The value of the bit counter as a natural number, bit 0 least
significant. -/
def bitsToNat : List Bool → Nat
  | [] => 0
  | b :: bs => (if b then 1 else 0) + 2 * bitsToNat bs

/-- The length-`l` bit pattern of a natural number, bit 0 least
significant. -/
def natToBits (n : Nat) : Nat → List Bool
  | 0 => []
  | l + 1 => decide (n % 2 = 1) :: natToBits (n / 2) l

/-! ### Basic facts about the bit counter -/

theorem foldl_and_eq (a : Bool) (bs : List Bool) :
    bs.foldl (fun acc b => acc && b) a = (a && bs.all (fun b => b)) := by
  induction bs generalizing a with
  | nil => simp
  | cons b bs ih => simp [List.foldl_cons, ih, Bool.and_assoc]

theorem allSet_eq_all (bs : List Bool) : allSet bs = bs.all (fun b => b) := by
  simp [allSet, foldl_and_eq]

theorem length_incBits (bs : List Bool) : (incBits bs).length = bs.length := by
  induction bs with
  | nil => rfl
  | cons b bs ih => by_cases h : b <;> simp [incBits, h, ih]

theorem bitsToNat_lt (bs : List Bool) : bitsToNat bs < 2 ^ bs.length := by
  induction bs with
  | nil => simp [bitsToNat]
  | cons b bs ih =>
    by_cases h : b <;> simp [bitsToNat, h, pow_succ] <;> omega

theorem bitsToNat_cons_true (bs : List Bool) :
    bitsToNat (true :: bs) = 1 + 2 * bitsToNat bs := rfl

theorem bitsToNat_cons_false (bs : List Bool) :
    bitsToNat (false :: bs) = 2 * bitsToNat bs := by
  simp [bitsToNat]

theorem allSet_cons (b : Bool) (bs : List Bool) :
    allSet (b :: bs) = (b && allSet bs) := by
  simp [allSet_eq_all]

theorem allSet_iff_bitsToNat (bs : List Bool) :
    allSet bs = true ↔ bitsToNat bs + 1 = 2 ^ bs.length := by
  induction bs with
  | nil => simp [allSet, bitsToNat]
  | cons b bs ih =>
    have hlt := bitsToNat_lt bs
    rw [allSet_cons]
    cases b <;>
      simp [ih, bitsToNat_cons_true, bitsToNat_cons_false, pow_succ] <;>
      omega

theorem bitsToNat_incBits (bs : List Bool) (h : allSet bs = false) :
    bitsToNat (incBits bs) = bitsToNat bs + 1 := by
  induction bs with
  | nil => simp [allSet] at h
  | cons b bs ih =>
    rw [allSet_cons] at h
    cases b
    · show bitsToNat (true :: bs) = bitsToNat (false :: bs) + 1
      rw [bitsToNat_cons_true, bitsToNat_cons_false]
      omega
    · simp only [Bool.true_and] at h
      show bitsToNat (false :: incBits bs) = bitsToNat (true :: bs) + 1
      rw [bitsToNat_cons_false, bitsToNat_cons_true, ih h]
      omega

theorem natToBits_bitsToNat (bs : List Bool) :
    natToBits (bitsToNat bs) bs.length = bs := by
  induction bs with
  | nil => rfl
  | cons b bs ih =>
    by_cases h : b <;>
      simp [bitsToNat, natToBits, h, Nat.add_mul_mod_self_left,
        Nat.add_mul_div_left, ih]

theorem length_natToBits (n l : Nat) : (natToBits n l).length = l := by
  induction l generalizing n with
  | zero => rfl
  | succ l ih => simp [natToBits, ih]

theorem bitsToNat_natToBits (l n : Nat) :
    bitsToNat (natToBits n l) = n % 2 ^ l := by
  induction l generalizing n with
  | zero => simp [natToBits, bitsToNat, Nat.mod_one]
  | succ l ih =>
    have h2 : n % (2 * 2 ^ l) = n % 2 + 2 * (n / 2 % 2 ^ l) := Nat.mod_mul
    have hm : n % 2 = 1 ∨ n % 2 = 0 := by omega
    rcases hm with hm | hm <;>
      simp [natToBits, bitsToNat, ih, hm, pow_succ, Nat.mul_comm, h2]

theorem bitsToNat_replicate_false (n : Nat) :
    bitsToNat (List.replicate n false) = 0 := by
  induction n with
  | zero => rfl
  | succ n ih => simp [List.replicate_succ, bitsToNat, ih]

theorem bitsToNat_eq_zero_iff (bs : List Bool) :
    bitsToNat bs = 0 ↔ ∀ i < bs.length, bs.getD i false = false := by
  induction bs with
  | nil => simp [bitsToNat]
  | cons b bs ih =>
    constructor
    · intro h i hi
      have hb : b = false := by by_cases hb : b <;> simp [bitsToNat, hb] at h ⊢
      have ht : bitsToNat bs = 0 := by simp [bitsToNat, hb] at h; omega
      match i with
      | 0 => simpa using hb
      | i + 1 =>
        simp only [List.getD_cons_succ]
        exact (ih.mp ht) i (by simpa using hi)
    · intro h
      have hb : b = false := by simpa using h 0 (by simp)
      have ht : bitsToNat bs = 0 := by
        refine ih.mpr fun i hi => ?_
        simpa using h (i + 1) (by simpa using hi)
      simp [bitsToNat, hb, ht]

theorem getD_natToBits (l : Nat) :
    ∀ (n i : Nat), i < l → (natToBits n l).getD i false = n.testBit i := by
  induction l with
  | zero => intro n i hi; omega
  | succ l ih =>
    intro n i hi
    match i with
    | 0 => simp [natToBits, Nat.testBit_zero]
    | i + 1 =>
      simp only [natToBits, List.getD_cons_succ, Nat.testBit_succ]
      exact ih (n / 2) i (by omega)

/-! ### One step of the iterator -/

theorem next_of_allSet (s : SubsetIter α) (hf : s.with_emptyset = false)
    (h : allSet s.set = true) : s.next = (none, s) := by
  simp [SubsetIter.next, hf, SubsetIter.next_set, h]

theorem next_of_not_allSet (s : SubsetIter α) (hf : s.with_emptyset = false)
    (h : allSet s.set = false) :
    s.next = (some (project s.data (incBits s.set)),
      { s with set := incBits s.set }) := by
  simp [SubsetIter.next, hf, SubsetIter.next_set, h]

theorem next_of_emptyset (s : SubsetIter α) (hf : s.with_emptyset = true) :
    s.next = (some [], { s with with_emptyset := false }) := by
  simp [SubsetIter.next, hf]

/-! ### The run of a session -/

theorem runFuel_eq (r : Nat) :
    ∀ (f : Nat) (s : SubsetIter α), s.with_emptyset = false →
      bitsToNat s.set + 1 + r = 2 ^ s.set.length → r ≤ f →
      runFuel f s = (List.range' (bitsToNat s.set + 1) r).map
        (fun k => project s.data (natToBits k s.set.length)) := by
  induction r with
  | zero =>
    intro f s hf hv _
    have hall : allSet s.set = true :=
      (allSet_iff_bitsToNat s.set).mpr (by omega)
    cases f with
    | zero => simp [runFuel]
    | succ f => simp [runFuel, next_of_allSet s hf hall]
  | succ r ih =>
    intro f s hf hv hr
    have hlt := bitsToNat_lt s.set
    have hall : allSet s.set = false := by
      cases hc : allSet s.set
      · rfl
      · have := (allSet_iff_bitsToNat s.set).mp hc
        omega
    obtain ⟨f, rfl⟩ : ∃ g, f = g + 1 := ⟨f - 1, by omega⟩
    have hlen : (incBits s.set).length = s.set.length := length_incBits s.set
    have hval : bitsToNat (incBits s.set) = bitsToNat s.set + 1 :=
      bitsToNat_incBits s.set hall
    have hbits : natToBits (bitsToNat s.set + 1) s.set.length = incBits s.set := by
      have := natToBits_bitsToNat (incBits s.set)
      rwa [hval, hlen] at this
    have htail := ih f { s with set := incBits s.set } hf
      (by simp only [hlen]; omega) (by omega)
    simp only [runFuel, next_of_not_allSet s hf hall]
    rw [List.range'_succ, List.map_cons, hbits, htail]
    simp [hlen, hval]

theorem session_false_eq (data : List α) :
    session (SubsetGenerator.new data false) =
      (List.range' 1 (2 ^ data.length - 1)).map
        (fun k => project data (natToBits k data.length)) := by
  have h1 : (1 : Nat) ≤ 2 ^ data.length := Nat.one_le_two_pow
  have hs : ((SubsetGenerator.new data false).iter).set
      = List.replicate data.length false := rfl
  have h := runFuel_eq (2 ^ data.length - 1) (2 ^ data.length + 1)
    ((SubsetGenerator.new data false).iter) rfl
    (by rw [hs, bitsToNat_replicate_false, List.length_replicate]; omega)
    (by omega)
  rw [session] at *
  simpa [hs, bitsToNat_replicate_false] using h

theorem session_true_eq (data : List α) :
    session (SubsetGenerator.new data true) =
      [] :: (List.range' 1 (2 ^ data.length - 1)).map
        (fun k => project data (natToBits k data.length)) := by
  have h1 : (1 : Nat) ≤ 2 ^ data.length := Nat.one_le_two_pow
  have hstep : ((SubsetGenerator.new data true).iter).next
      = (some [], { (SubsetGenerator.new data true).iter with
          with_emptyset := false }) :=
    next_of_emptyset _ rfl
  have hs : ({ (SubsetGenerator.new data true).iter with
      with_emptyset := false } : SubsetIter α).set
      = List.replicate data.length false := rfl
  have h := runFuel_eq (2 ^ data.length - 1) (2 ^ data.length)
    ({ (SubsetGenerator.new data true).iter with with_emptyset := false })
    rfl
    (by rw [hs, bitsToNat_replicate_false, List.length_replicate]; omega)
    (by omega)
  rw [session]
  show runFuel (2 ^ data.length + 1) ((SubsetGenerator.new data true).iter) = _
  rw [runFuel, hstep]
  simpa [SubsetGenerator.iter, SubsetGenerator.new, hs,
    bitsToNat_replicate_false] using h

/-! ### The projection of the counter into a subset -/

theorem filterMap_ite_some (p : β → Bool) (l : List β) :
    l.filterMap (fun i => if p i then some i else none) = l.filter p := by
  induction l with
  | nil => rfl
  | cons a l ih =>
    by_cases h : p a <;>
      simp [List.filterMap_cons, List.filter_cons, h, ih]

theorem project_eq_filter_filterMap (data : List α) (set : List Bool) :
    project data set = ((List.range set.length).filter
      (fun i => set.getD i false)).filterMap (fun i => data[i]?) :=
  (List.filterMap_filter _ _ _).symm

theorem project_range_eq_filter (N : Nat) (set : List Bool)
    (h : set.length = N) :
    project (List.range N) set
      = (List.range N).filter (fun i => set.getD i false) := by
  subst h
  have hcong : ∀ i ∈ List.range set.length,
      (if set.getD i false then (List.range set.length)[i]? else none)
        = (if set.getD i false then some i else none) := by
    intro i hi
    rw [List.getElem?_range (List.mem_range.mp hi)]
  rw [project, List.filterMap_congr hcong, filterMap_ite_some]

theorem sorted_filter_range (N : Nat) (p : Nat → Bool) :
    List.Sorted (fun a b => a < b) ((List.range N).filter p) :=
  (List.pairwise_lt_range N).filter p

theorem filter_range_inj (N : Nat) (bs bs' : List Bool)
    (hl : bs.length = N) (hl' : bs'.length = N)
    (h : (List.range N).filter (fun i => bs.getD i false)
       = (List.range N).filter (fun i => bs'.getD i false)) : bs = bs' := by
  have key : ∀ i, i < N → bs.getD i false = bs'.getD i false := by
    intro i hi
    have h1 : i ∈ (List.range N).filter (fun j => bs.getD j false)
        ↔ i ∈ (List.range N).filter (fun j => bs'.getD j false) := by rw [h]
    rw [List.mem_filter, List.mem_filter] at h1
    have hmem : i ∈ List.range N := List.mem_range.mpr hi
    cases hb : bs.getD i false <;> cases hb' : bs'.getD i false
    · rfl
    · exact absurd (h1.mpr ⟨hmem, hb'⟩).2 (by rw [hb]; simp)
    · exact absurd (h1.mp ⟨hmem, hb⟩).2 (by rw [hb']; simp)
    · rfl
  apply List.ext_getElem (by omega)
  intro i h1 h2
  have hk := key i (by omega)
  rwa [List.getD_eq_getElem bs false (by omega),
    List.getD_eq_getElem bs' false (by omega)] at hk

theorem natToBits_inj (N k k' : Nat) (hk : k < 2 ^ N) (hk' : k' < 2 ^ N)
    (h : natToBits k N = natToBits k' N) : k = k' := by
  have h2 := congrArg bitsToNat h
  rw [bitsToNat_natToBits, bitsToNat_natToBits,
    Nat.mod_eq_of_lt hk, Nat.mod_eq_of_lt hk'] at h2
  exact h2

theorem session_range_false_eq (N : Nat) :
    session (SubsetGenerator.new (List.range N) false)
      = (List.range' 1 (2 ^ N - 1)).map
          (fun k => (List.range N).filter
            (fun i => (natToBits k N).getD i false)) := by
  rw [session_false_eq]
  simp only [List.length_range]
  refine List.map_congr_left ?_
  intro k _
  exact project_range_eq_filter N _ (length_natToBits k N)

theorem session_range_true_eq (N : Nat) :
    session (SubsetGenerator.new (List.range N) true)
      = [] :: (List.range' 1 (2 ^ N - 1)).map
          (fun k => (List.range N).filter
            (fun i => (natToBits k N).getD i false)) := by
  rw [session_true_eq]
  simp only [List.length_range]
  refine congrArg (List.cons []) (List.map_congr_left ?_)
  intro k _
  exact project_range_eq_filter N _ (length_natToBits k N)

/-! ### The multiset of emitted index subsets -/

theorem count_eq_one_of_nodup_mem {β : Type u} [BEq β] [LawfulBEq β]
    {a : β} {l : List β} (hd : l.Nodup) (h : a ∈ l) : l.count a = 1 := by
  induction l with
  | nil => simp at h
  | cons b l ih =>
    rw [List.count_cons]
    rcases List.mem_cons.mp h with rfl | hmem
    · have hnm : a ∉ l := (List.nodup_cons.mp hd).1
      rw [List.count_eq_zero.mpr hnm]
      simp
    · have hne : ¬(b == a) = true := by
        intro hbe
        have hba : b = a := eq_of_beq hbe
        subst hba
        exact (List.nodup_cons.mp hd).1 hmem
      rw [ih (List.nodup_cons.mp hd).2 hmem]
      simp [hne]

theorem nodup_session_range_parts (N : Nat) :
    ((List.range' 1 (2 ^ N - 1)).map
      (fun k => (List.range N).filter
        (fun i => (natToBits k N).getD i false))).Nodup := by
  refine List.Nodup.map_on ?_ (List.nodup_range' 1 (2 ^ N - 1))
  intro k hk k' hk' hfk
  rw [List.mem_range'_1] at hk hk'
  have h1 : (1 : Nat) ≤ 2 ^ N := Nat.one_le_two_pow
  have hbs := filter_range_inj N _ _
    (length_natToBits k N) (length_natToBits k' N) hfk
  exact natToBits_inj N k k' (by omega) (by omega) hbs

theorem mem_session_range_parts (N : Nat) (t : List Nat)
    (h : t ∈ (List.range' 1 (2 ^ N - 1)).map
      (fun k => (List.range N).filter
        (fun i => (natToBits k N).getD i false))) :
    t ≠ [] ∧ List.Sorted (fun a b => a < b) t ∧ ∀ i ∈ t, i < N := by
  obtain ⟨k, hk, rfl⟩ := List.mem_map.mp h
  rw [List.mem_range'_1] at hk
  have h1 : (1 : Nat) ≤ 2 ^ N := Nat.one_le_two_pow
  refine ⟨?_, sorted_filter_range N _, ?_⟩
  · intro hnil
    have hall : ∀ i ∈ List.range N, ¬((natToBits k N).getD i false = true) :=
      List.filter_eq_nil_iff.mp hnil
    have hz : bitsToNat (natToBits k N) = 0 := by
      refine (bitsToNat_eq_zero_iff _).mpr ?_
      intro i hi
      rw [length_natToBits] at hi
      have hni := hall i (List.mem_range.mpr hi)
      cases hgi : (natToBits k N).getD i false
      · rfl
      · exact absurd hgi hni
    rw [bitsToNat_natToBits, Nat.mod_eq_of_lt (by omega)] at hz
    omega
  · intro i hi
    exact List.mem_range.mp (List.mem_filter.mp hi).1

theorem count_session_range_parts (N : Nat) (A : Finset ℕ)
    (hA : A ⊆ Finset.range N) (hne : A.Nonempty) :
    ((List.range' 1 (2 ^ N - 1)).map
      (fun k => (List.range N).filter
        (fun i => (natToBits k N).getD i false))).count
      ((List.range N).filter (fun i => decide (i ∈ A))) = 1 := by
  have h1 : (1 : Nat) ≤ 2 ^ N := Nat.one_le_two_pow
  have hlen : ((List.range N).map (fun i => decide (i ∈ A))).length = N := by
    simp
  have hgetD : ∀ i, i < N →
      ((List.range N).map (fun i => decide (i ∈ A))).getD i false
        = decide (i ∈ A) := by
    intro i hi
    rw [List.getD_eq_getElem _ _ (by simpa using hi)]
    simp
  have hv : bitsToNat ((List.range N).map (fun i => decide (i ∈ A))) < 2 ^ N := by
    have hb := bitsToNat_lt ((List.range N).map (fun i => decide (i ∈ A)))
    rwa [hlen] at hb
  have hnz : bitsToNat ((List.range N).map (fun i => decide (i ∈ A))) ≠ 0 := by
    obtain ⟨a, ha⟩ := hne
    have haN : a < N := Finset.mem_range.mp (hA ha)
    intro h0
    have hz := (bitsToNat_eq_zero_iff _).mp h0 a (by rw [hlen]; exact haN)
    rw [hgetD a haN] at hz
    simp [ha] at hz
  have hnb : natToBits (bitsToNat ((List.range N).map (fun i => decide (i ∈ A)))) N
      = (List.range N).map (fun i => decide (i ∈ A)) := by
    have hr := natToBits_bitsToNat ((List.range N).map (fun i => decide (i ∈ A)))
    rwa [hlen] at hr
  have hfk : (List.range N).filter
      (fun i => (natToBits (bitsToNat ((List.range N).map
        (fun i => decide (i ∈ A)))) N).getD i false)
      = (List.range N).filter (fun i => decide (i ∈ A)) := by
    rw [hnb]
    exact List.filter_congr (fun i hi => hgetD i (List.mem_range.mp hi))
  have hmem : (List.range N).filter (fun i => decide (i ∈ A))
      ∈ (List.range' 1 (2 ^ N - 1)).map
        (fun k => (List.range N).filter
          (fun i => (natToBits k N).getD i false)) := by
    rw [List.mem_map]
    exact ⟨bitsToNat ((List.range N).map (fun i => decide (i ∈ A))),
      List.mem_range'_1.mpr ⟨by omega, by omega⟩, hfk⟩
  exact count_eq_one_of_nodup_mem (nodup_session_range_parts N) hmem

/-- C1: for every source length N ≥ 0, a full session with
`with_emptyset = false` over the indices `0..N-1` yields exactly
`2 ^ N - 1` subsets, all distinct, each a non-empty subset of the source
indices; every non-empty subset of `{0..N-1}` appears exactly once, and
the empty (all-zero) pattern is the only one excluded. -/
theorem C1_full_session_without_emptyset (N : Nat) :
    (∀ data : List α, data.length = N →
      (session (SubsetGenerator.new data false)).length = 2 ^ N - 1) ∧
    (session (SubsetGenerator.new (List.range N) false)).Nodup ∧
    (∀ t ∈ session (SubsetGenerator.new (List.range N) false),
      t ≠ [] ∧ ∀ i ∈ t, i < N) ∧
    [] ∉ session (SubsetGenerator.new (List.range N) false) ∧
    (∀ A : Finset ℕ, A ⊆ Finset.range N → A.Nonempty →
      (session (SubsetGenerator.new (List.range N) false)).count
        ((List.range N).filter (fun i => decide (i ∈ A))) = 1) := by
  rw [session_range_false_eq]
  refine ⟨?_, nodup_session_range_parts N, ?_, ?_, ?_⟩
  · intro data hdata
    rw [session_false_eq]
    simp [hdata]
  · intro t ht
    obtain ⟨h1, _, h3⟩ := mem_session_range_parts N t ht
    exact ⟨h1, h3⟩
  · intro hmem
    exact (mem_session_range_parts N [] hmem).1 rfl
  · intro A hA hne
    exact count_session_range_parts N A hA hne

/-- Witness for C1 at N = 2 with the subset A = {1}. -/
theorem C1_full_session_without_emptyset_witness :
    ({1} : Finset ℕ) ⊆ Finset.range 2 ∧ ({1} : Finset ℕ).Nonempty ∧
    (session (SubsetGenerator.new (List.range 2) false)).count
      ((List.range 2).filter (fun i => decide (i ∈ ({1} : Finset ℕ)))) = 1 :=
  ⟨by decide, by decide,
    (@C1_full_session_without_emptyset ℕ 2).2.2.2.2 {1} (by decide) (by decide)⟩

/-- C2: for every source length N ≥ 0, a full session with
`with_emptyset = true` over the indices `0..N-1` yields exactly `2 ^ N`
subsets, all distinct, covering the full power set of `{0..N-1}` with the
empty subset exactly once, as the very first result; emitting it clears
the one-shot flag without touching the counter. -/
theorem C2_full_session_with_emptyset (N : Nat) :
    (∀ data : List α, data.length = N →
      (session (SubsetGenerator.new data true)).length = 2 ^ N) ∧
    (session (SubsetGenerator.new (List.range N) true)).Nodup ∧
    (session (SubsetGenerator.new (List.range N) true))[0]? = some [] ∧
    (session (SubsetGenerator.new (List.range N) true)).count [] = 1 ∧
    (∀ A : Finset ℕ, A ⊆ Finset.range N →
      (session (SubsetGenerator.new (List.range N) true)).count
        ((List.range N).filter (fun i => decide (i ∈ A))) = 1) ∧
    (SubsetGenerator.new (List.range N) true).iter.next
      = (some [], { (SubsetGenerator.new (List.range N) true).iter with
          with_emptyset := false }) := by
  have h1 : (1 : Nat) ≤ 2 ^ N := Nat.one_le_two_pow
  have hnil : ([] : List ℕ) ∉ (List.range' 1 (2 ^ N - 1)).map
      (fun k => (List.range N).filter
        (fun i => (natToBits k N).getD i false)) := by
    intro hmem
    exact (mem_session_range_parts N [] hmem).1 rfl
  rw [session_range_true_eq]
  refine ⟨?_, ?_, by simp, ?_, ?_, next_of_emptyset _ rfl⟩
  · intro data hdata
    rw [session_true_eq]
    simp [hdata]
    omega
  · exact List.nodup_cons.mpr ⟨hnil, nodup_session_range_parts N⟩
  · rw [List.count_cons, List.count_eq_zero.mpr hnil]
    simp
  · intro A hA
    rcases Finset.eq_empty_or_nonempty A with rfl | hne
    · have hf : (List.range N).filter
          (fun i => decide (i ∈ (∅ : Finset ℕ))) = [] := by
        simp
      rw [hf, List.count_cons, List.count_eq_zero.mpr hnil]
      simp
    · rw [List.count_cons]
      have hc := count_session_range_parts N A hA hne
      have hne' : ¬(([] : List ℕ)
          == (List.range N).filter (fun i => decide (i ∈ A))) = true := by
        intro hbe
        have hb := eq_of_beq hbe
        rcases hne with ⟨a, ha⟩
        have haN : a < N := Finset.mem_range.mp (hA ha)
        have : a ∈ (List.range N).filter (fun i => decide (i ∈ A)) :=
          List.mem_filter.mpr ⟨List.mem_range.mpr haN, by simpa using ha⟩
        rw [← hb] at this
        simp at this
      rw [hc]
      simp [hne']

/-- Witness for C2 at N = 1 with the empty subset A = ∅. -/
theorem C2_full_session_with_emptyset_witness :
    (∅ : Finset ℕ) ⊆ Finset.range 1 ∧
    (session (SubsetGenerator.new (List.range 1) true)).count
      ((List.range 1).filter (fun i => decide (i ∈ (∅ : Finset ℕ)))) = 1 :=
  ⟨by decide, (@C2_full_session_with_emptyset ℕ 1).2.2.2.2.1 ∅ (by decide)⟩

/-! ### Order within an emitted subset -/

theorem mem_map_project (data : List α) (t : List α)
    (ht : t ∈ (List.range' 1 (2 ^ data.length - 1)).map
      (fun k => project data (natToBits k data.length))) :
    ∃ idx : List Nat, List.Sorted (fun a b => a < b) idx ∧
      (∀ i ∈ idx, i < data.length) ∧
      t = idx.filterMap (fun i => data[i]?) := by
  obtain ⟨k, _, rfl⟩ := List.mem_map.mp ht
  refine ⟨(List.range data.length).filter
    (fun i => (natToBits k data.length).getD i false),
    sorted_filter_range _ _, ?_, ?_⟩
  · intro i hi
    exact List.mem_range.mp (List.mem_filter.mp hi).1
  · rw [project_eq_filter_filterMap, length_natToBits]

/-- C3: every subset emitted by a session lists its elements at a strictly
increasing sequence of source indices, i.e. in ascending original-index
order, for every configuration of the session. -/
theorem C3_ascending_index_order (data : List α) (flag : Bool)
    (t : List α) (ht : t ∈ session (SubsetGenerator.new data flag)) :
    ∃ idx : List Nat, List.Sorted (fun a b => a < b) idx ∧
      (∀ i ∈ idx, i < data.length) ∧
      t = idx.filterMap (fun i => data[i]?) := by
  cases flag
  · rw [session_false_eq] at ht
    exact mem_map_project data t ht
  · rw [session_true_eq] at ht
    rcases List.mem_cons.mp ht with rfl | hmem
    · exact ⟨[], by simp, by simp, rfl⟩
    · exact mem_map_project data t hmem

/-- Witness for C3: the subset [20, 30] emitted over the source [20, 30]. -/
theorem C3_ascending_index_order_witness :
    ([20, 30] : List Nat) ∈ session (SubsetGenerator.new [20, 30] false) ∧
    ∃ idx : List Nat, List.Sorted (fun a b => a < b) idx ∧
      (∀ i ∈ idx, i < ([20, 30] : List Nat).length) ∧
      ([20, 30] : List Nat) = idx.filterMap (fun i => [20, 30][i]?) :=
  ⟨by decide, C3_ascending_index_order [20, 30] false [20, 30] (by decide)⟩

/-- C4: exhaustion is idempotent: once `next` returns `none`, the state is
unchanged and every later `next` call on the session returns `none`. -/
theorem C4_exhaustion_idempotent (s : SubsetIter α)
    (h : (s.next).1 = none) : ∀ m : Nat, ((stepN m s).next).1 = none := by
  have hstate : s.next = (none, s) := by
    cases hf : s.with_emptyset
    · cases hall : allSet s.set
      · rw [next_of_not_allSet s hf hall] at h
        simp at h
      · exact next_of_allSet s hf hall
    · rw [next_of_emptyset s hf] at h
      simp at h
  have hfix : ∀ m, stepN m s = s := by
    intro m
    induction m with
    | zero => rfl
    | succ m ih =>
      show stepN m (s.next).2 = s
      rw [hstate]
      exact ih
  intro m
  rw [hfix m, hstate]

/-- Witness for C4: an exhausted one-element session stays exhausted three
calls later. -/
theorem C4_exhaustion_idempotent_witness :
    (((⟨[0], [true], false⟩ : SubsetIter Nat).next).1 = none) ∧
    (((stepN 3 (⟨[0], [true], false⟩ : SubsetIter Nat)).next).1 = none) :=
  ⟨by decide, C4_exhaustion_idempotent _ (by decide) 3⟩

/-- C5: over the empty source collection a session without the empty set
yields no results, a session with the empty set yields exactly the empty
subset once and is then exhausted; the zero-bit counter counts as
trivially all-ones. -/
theorem C5_empty_source (α : Type u) :
    session (SubsetGenerator.new ([] : List α) false) = [] ∧
    session (SubsetGenerator.new ([] : List α) true) = [[]] ∧
    allSet ((SubsetGenerator.new ([] : List α) true).iter).set = true ∧
    (((SubsetGenerator.new ([] : List α) true).iter.next.2).next
      = (none, (SubsetGenerator.new ([] : List α) true).iter.next.2)) :=
  ⟨rfl, rfl, rfl, rfl⟩

/-- C6: when the counter is already all-ones, `next_set` reports failure
and leaves the whole state unchanged (no wrap to all-zero), and `next`
yields no result once the one-shot empty flag is spent. -/
theorem C6_no_wrap_at_all_ones (s : SubsetIter α)
    (h : allSet s.set = true) :
    s.next_set = (false, s) ∧
    (s.with_emptyset = false → s.next = (none, s)) := by
  refine ⟨?_, fun hf => next_of_allSet s hf h⟩
  simp [SubsetIter.next_set, h]

/-- Witness for C6 on a one-element session with an all-ones counter. -/
theorem C6_no_wrap_at_all_ones_witness :
    allSet [true] = true ∧
    (⟨[5], [true], false⟩ : SubsetIter Nat).next_set
      = (false, ⟨[5], [true], false⟩) ∧
    (⟨[5], [true], false⟩ : SubsetIter Nat).next
      = (none, ⟨[5], [true], false⟩) :=
  ⟨by decide,
    (C6_no_wrap_at_all_ones (⟨[5], [true], false⟩ : SubsetIter Nat)
      (by decide)).1,
    (C6_no_wrap_at_all_ones (⟨[5], [true], false⟩ : SubsetIter Nat)
      (by decide)).2 rfl⟩

/-- C7: the borrowing session (`iter`) and the consuming session
(`into_iter`) start from identical states and emit exactly the same
sequence of subsets. -/
theorem C7_iter_into_iter_equiv (g : SubsetGenerator α) :
    g.into_iter = g.iter ∧
    ∀ f : Nat, runFuel f g.into_iter = runFuel f g.iter :=
  ⟨rfl, fun _ => rfl⟩

/-! ### The setcover example program -/

/-- The `families` vector of examples/setcover.rs. -/
def setcoverFamilies : List (List Nat) :=
  [[4], [0, 1, 2], [1, 3], [2, 4], [0, 3, 4]]

/-- The union computed per subset in examples/setcover.rs: all elements of
the selected families are inserted into a `HashSet`, whose final `len()`
is the number of distinct elements. -/
def coverSize (subset : List (List Nat)) : Nat :=
  (subset.flatten.dedup).length

/-- The accumulator loop of examples/setcover.rs: `opt` starts at
`usize::MAX` (2^64 - 1) and becomes `subset.len()` whenever the union of
the subset has the size of the universe (5) and the subset is no larger
than the current `opt`. -/
def setcoverOpt : Nat :=
  (session (SubsetGenerator.new setcoverFamilies false)).foldl
    (fun opt subset =>
      if coverSize subset = 5 ∧ subset.length ≤ opt then subset.length
      else opt)
    (2 ^ 64 - 1)

/-- C8: over the five families of examples/setcover.rs with
`with_emptyset = false`, the minimum size of an enumerated subset whose
union covers the universe {0,1,2,3,4} is 2, and the example program
computes exactly that value. -/
theorem C8_setcover_optimum :
    setcoverOpt = 2 ∧
    (∃ t ∈ session (SubsetGenerator.new setcoverFamilies false),
      coverSize t = 5 ∧ t.length = 2) ∧
    (∀ t ∈ session (SubsetGenerator.new setcoverFamilies false),
      coverSize t = 5 → 2 ≤ t.length) :=
  ⟨by decide, by decide, by decide⟩

/-- Witness for C8: the covering pair of families {1, 4} has size 2. -/
theorem C8_setcover_optimum_witness :
    coverSize [[0, 1, 2], [0, 3, 4]] = 5 ∧
    2 ≤ ([[0, 1, 2], [0, 3, 4]] : List (List Nat)).length :=
  ⟨by decide, C8_setcover_optimum.2.2 [[0, 1, 2], [0, 3, 4]]
    (by decide) (by decide)⟩

/-! ### The binary-counter enumeration order -/

theorem project_natToBits_eq_testBit (data : List α) (k : Nat) :
    project data (natToBits k data.length)
      = ((List.range data.length).filter
          (fun i => k.testBit i)).filterMap (fun i => data[i]?) := by
  rw [project_eq_filter_filterMap, length_natToBits]
  refine congrArg (List.filterMap fun i => data[i]?) (List.filter_congr ?_)
  intro i hi
  exact getD_natToBits data.length k i (List.mem_range.mp hi)

theorem session_false_getElem (data : List α) (k : Nat)
    (h1 : 1 ≤ k) (h2 : k ≤ 2 ^ data.length - 1) :
    (session (SubsetGenerator.new data false))[k - 1]?
      = some (((List.range data.length).filter
          (fun i => k.testBit i)).filterMap (fun i => data[i]?)) := by
  have hN : (1 : Nat) ≤ 2 ^ data.length := Nat.one_le_two_pow
  obtain ⟨m, rfl⟩ : ∃ m, k = m + 1 := ⟨k - 1, by omega⟩
  have hm : m < 2 ^ data.length - 1 := by omega
  rw [session_false_eq, Nat.add_sub_cancel, List.getElem?_map,
    List.getElem?_range' 1 1 hm, Option.map_some']
  have harg : 1 + 1 * m = m + 1 := by omega
  rw [harg, project_natToBits_eq_testBit]

theorem session_true_getElem (data : List α) (k : Nat)
    (h1 : 1 ≤ k) (h2 : k ≤ 2 ^ data.length - 1) :
    (session (SubsetGenerator.new data true))[k]?
      = some (((List.range data.length).filter
          (fun i => k.testBit i)).filterMap (fun i => data[i]?)) := by
  have hN : (1 : Nat) ≤ 2 ^ data.length := Nat.one_le_two_pow
  obtain ⟨m, rfl⟩ : ∃ m, k = m + 1 := ⟨k - 1, by omega⟩
  have hm : m < 2 ^ data.length - 1 := by omega
  rw [session_true_eq, List.getElem?_cons_succ, List.getElem?_map,
    List.getElem?_range' 1 1 hm, Option.map_some']
  have harg : 1 + 1 * m = m + 1 := by omega
  rw [harg, project_natToBits_eq_testBit]

theorem filter_testBit_one_range (N : Nat) :
    (List.range (N + 1)).filter (fun i => (1 : Nat).testBit i) = [0] := by
  rw [List.range_succ_eq_map, List.filter_cons]
  have h0 : (1 : Nat).testBit 0 = true := by decide
  have hrest : (List.map Nat.succ (List.range N)).filter
      (fun i => (1 : Nat).testBit i) = [] := by
    rw [List.filter_eq_nil_iff]
    intro x hx
    obtain ⟨i, _, rfl⟩ := List.mem_map.mp hx
    simp [Nat.testBit_succ, Nat.zero_testBit]
  rw [hrest]
  simp [h0]

/-- C9: the enumeration order is binary-counter order with index 0 as the
least-significant bit: for `1 ≤ k ≤ 2^N - 1`, the k-th subset emitted
without the empty set (1-indexed) collects exactly the items at indices
`i` with bit `i` of `k` set, in ascending index order, and with the empty
set the same subset appears one position later; in particular the first
emitted subset is the singleton holding item 0. -/
theorem C9_binary_counter_order (data : List α) (k : Nat)
    (h1 : 1 ≤ k) (h2 : k ≤ 2 ^ data.length - 1) :
    ((session (SubsetGenerator.new data false))[k - 1]?
      = some (((List.range data.length).filter
          (fun i => k.testBit i)).filterMap (fun i => data[i]?))) ∧
    ((session (SubsetGenerator.new data true))[k]?
      = some (((List.range data.length).filter
          (fun i => k.testBit i)).filterMap (fun i => data[i]?))) ∧
    (data ≠ [] →
      (session (SubsetGenerator.new data false))[0]?
        = some (data.take 1)) := by
  refine ⟨session_false_getElem data k h1 h2,
    session_true_getElem data k h1 h2, ?_⟩
  intro hne
  obtain ⟨d, rest, rfl⟩ : ∃ d rest, data = d :: rest := by
    
    cases data with
    | nil => exact absurd rfl hne
    | cons d rest => exact ⟨d, rest, rfl⟩
  have hN : (1 : Nat) ≤ 2 ^ (d :: rest).length := Nat.one_le_two_pow
  have h2' : (2 : Nat) ≤ 2 ^ (d :: rest).length := by
    have : (2 : Nat) ^ 1 ≤ 2 ^ (d :: rest).length :=
      Nat.pow_le_pow_right (by omega) (by simp)
    simpa using this
  have hfst := session_false_getElem (d :: rest) 1 (by omega) (by omega)
  rw [show (d :: rest).length = rest.length + 1 from rfl,
    filter_testBit_one_range] at hfst
  simpa using hfst

/-- Witness for C9 over the source [10, 20] at k = 1: the first emitted
subset is the singleton holding item 0. -/
theorem C9_binary_counter_order_witness :
    (1 : Nat) ≤ 1 ∧ 1 ≤ 2 ^ ([10, 20] : List Nat).length - 1 ∧
    (session (SubsetGenerator.new ([10, 20] : List Nat) false))[0]?
      = some [10] :=
  ⟨by decide, by decide,
    ((C9_binary_counter_order ([10, 20] : List Nat) 1
      (by decide) (by decide)).1).trans (by decide)⟩

/-- C10: the bit counter always has the length of the source collection:
it does at creation (both for `iter` and `into_iter`) and after every
`next`; under this invariant every index used by the projection loop is in
bounds for the data vector, so the out-of-bounds branch is unreachable. -/
theorem C10_counter_length_invariant (g : SubsetGenerator α)
    (s : SubsetIter α) :
    g.iter.set.length = g.iter.data.length ∧
    g.into_iter.set.length = g.into_iter.data.length ∧
    (s.set.length = s.data.length →
      ((s.next).2.set.length = (s.next).2.data.length ∧
        ∀ i, i < s.set.length → (s.data[i]?).isSome)) := by
  refine ⟨by simp [SubsetGenerator.iter],
    by simp [SubsetGenerator.into_iter], fun hinv => ⟨?_, ?_⟩⟩
  · cases hf : s.with_emptyset
    · cases hall : allSet s.set
      · rw [next_of_not_allSet s hf hall]
        simpa [length_incBits] using hinv
      · rw [next_of_allSet s hf hall]
        exact hinv
    · rw [next_of_emptyset s hf]
      exact hinv
  · intro i hi
    rw [hinv] at hi
    simp [List.getElem?_eq_getElem hi]

/-- Witness for C10 on a one-element session about to emit its subset. -/
theorem C10_counter_length_invariant_witness :
    (⟨[7], [false], false⟩ : SubsetIter Nat).set.length
        = (⟨[7], [false], false⟩ : SubsetIter Nat).data.length ∧
    ((⟨[7], [false], false⟩ : SubsetIter Nat).next).2.set.length
      = ((⟨[7], [false], false⟩ : SubsetIter Nat).next).2.data.length :=
  ⟨by decide,
    ((C10_counter_length_invariant (SubsetGenerator.new ([] : List Nat) false)
      (⟨[7], [false], false⟩ : SubsetIter Nat)).2.2 (by decide)).1⟩
